import Mathlib

/-!
# Sleep tracker (`script.js`): a shallow embedding and its verified properties

The page keeps one global array `records`, persists it under the key
`sleepRecords` of `localStorage` as JSON text, and derives a list view and a
summary from it.

Modelling conventions.

* A JavaScript string is a `List Char`.
* A JavaScript number is a `JsNum`: a finite decimal in the canonical form
  `± s × 10^e` with `s` not divisible by ten, which is exactly the information
  `Number::toString` prints.  `-0` and `+0` are one value, and `NaN` and the
  infinities are not values of the type: a computation that would produce them
  returns `none`.  Arithmetic on numbers is exact rational arithmetic on
  `JsNum.toRat`.
* `JSON.stringify`, `JSON.parse`, `Number`, `toFixed`, `parseFloat`,
  `Array.prototype.sort` and `new Date(text)` are ECMAScript built-ins; they are
  modelled after ECMA-262 on the values this program hands them.
* An object used as a dictionary (`dailySleep`) is the list of its own
  properties in creation order; names inherited from `Object.prototype` are not
  modelled.
* The global state `records` / `localStorage` / DOM is an explicit `State`
  passed through every handler.
-/

/-! ## Numbers -/

/-- A finite JavaScript number in canonical decimal form.  `nz neg q r e` is
`± (10 * q + r + 1) × 10^e`: the significand `10 * q + r + 1` has a nonzero last
digit, so every number has exactly one representation. -/
inductive JsNum where
  | zero
  | nz (neg : Bool) (q : Nat) (r : Fin 9) (e : Int)
deriving DecidableEq, Repr

namespace JsNum

/-- The significand `s` of a nonzero number (last digit nonzero). -/
def significand (q : Nat) (r : Fin 9) : Nat := 10 * q + r.val + 1

/-- Move factors of ten from the significand into the exponent. -/
def stripZeros : Nat → Nat → Int → Nat × Int
  | 0, m, e => (m, e)
  | fuel + 1, m, e =>
    if m % 10 = 0 ∧ m ≠ 0 then stripZeros fuel (m / 10) (e + 1) else (m, e)

/-- The number `± m × 10^e`, brought to canonical form. -/
def ofScaled (neg : Bool) (m : Nat) (e : Int) : JsNum :=
  let p := stripZeros m m e
  if _h : p.1 % 10 = 0 then .zero
  else .nz neg (p.1 / 10) ⟨p.1 % 10 - 1, by omega⟩ p.2

/-- The mathematical value of a number. -/
def toRat : JsNum → ℚ
  | .zero => 0
  | .nz neg q r e =>
    (if neg then -1 else 1) * ((significand q r : Nat) : ℚ) * (10 : ℚ) ^ e

end JsNum

/-! ## Duration calculator (`calculateDuration`, lines 49-63) -/

/-- `text.split(':')`. -/
def splitColon : List Char → List (List Char)
  | [] => [[]]
  | c :: cs =>
    if c = ':' then [] :: splitColon cs
    else match splitColon cs with
      | [] => [[c]]
      | h :: t => (c :: h) :: t

/-- The value of a run of decimal digits, most significant first. -/
def digitsValue (ds : List Char) : Nat :=
  ds.foldl (fun a c => 10 * a + (c.toNat - 48)) 0

/-- `Number(text)` on a nonempty run of ASCII digits, where it is the decimal
value (exactly so below `2^53`).  Every other text (`""`, signs, fractions,
exponents, hex, blanks, text that converts to `NaN`) is outside the modelled
fragment: `none`. -/
def jsNumber (s : List Char) : Option Nat :=
  if s ≠ [] ∧ s.all Char.isDigit = true then some (digitsValue s) else none

/-- `const [h, m] = text.split(':').map(Number)`: the first two components.
A text without a colon leaves `m` undefined, and the arithmetic on it is `NaN`:
`none`. -/
def hoursMinutes (t : List Char) : Option (Nat × Nat) :=
  match splitColon t with
  | h :: m :: _ => do
    let a ← jsNumber h
    let b ← jsNumber m
    pure (a, b)
  | _ => none

/-- `parseFloat(x.toFixed(2))`.  `toFixed(2)` writes the multiple of `1/100`
nearest to `x` (the larger one on a tie, the sign treated apart) as decimal
text, and `parseFloat` reads that text back as a number.  For `x` a whole
number of minutes over 60 the nearest multiple is never close to a tie
(`hundredths_not_tie`), so the rounding error of the division does not show. -/
def parseFloatToFixed2 (x : ℚ) : JsNum :=
  if x < 0 then JsNum.ofScaled true ⌊-x * 100 + 1 / 2⌋.toNat (-2)
  else JsNum.ofScaled false ⌊x * 100 + 1 / 2⌋.toNat (-2)

/-- `calculateDuration(start, end)`. -/
def calculateDuration (start end_ : List Char) : Option JsNum := do
  let (startH, startM) ← hoursMinutes start
  let (endH, endM) ← hoursMinutes end_
  let startMinutes : Int := startH * 60 + startM
  let endMinutes : Int := endH * 60 + endM
  -- Crossed midnight
  let endMinutes := if endMinutes < startMinutes then endMinutes + 24 * 60 else endMinutes
  let diffMinutes := endMinutes - startMinutes
  pure (parseFloatToFixed2 ((diffMinutes : ℚ) / 60))

/-- The `HH:MM` text of the time of day `h:m` (two digits each). -/
def hhmm (h m : Nat) : List Char :=
  [Nat.digitChar (h / 10), Nat.digitChar (h % 10), ':',
   Nat.digitChar (m / 10), Nat.digitChar (m % 10)]

/-! ## Records -/

/-- One element of `records`: the object literal built at lines 27-33. -/
structure Record where
  id : JsNum
  date : List Char
  startTime : List Char
  endTime : List Char
  duration : JsNum
deriving DecidableEq, Repr

/-! ## JSON text (`JSON.stringify`, `JSON.parse`) -/

namespace Json

/-- The quotation mark U+0022. -/
def dquote : Char := Char.ofNat 34

/-- The reverse solidus U+005C. -/
def backslash : Char := Char.ofNat 92

/-- The left curly bracket U+007B. -/
def lbrace : Char := Char.ofNat 123

/-- The right curly bracket U+007D. -/
def rbrace : Char := Char.ofNat 125

/-- The decimal digits of `n`, most significant first, no leading zero. -/
def digitChars (n : Nat) : List Char :=
  (Nat.digits 10 n).reverse.map Nat.digitChar

/-- The digits `ds` of a significand with the decimal point after the first `n`
of them, as `Number::toString` writes it (ECMA-262 6.1.6.1.20, radix 10).  With
`k` the number of digits: plain digits with trailing zeros when `k ≤ n ≤ 21`, a
decimal point inside the digits when `0 < n ≤ 21`, a leading `0.` when
`-6 < n ≤ 0`, and the exponent form otherwise. -/
def pointText (ds : List Char) (n : Int) : List Char :=
  let k : Int := ds.length
  if k ≤ n ∧ n ≤ 21 then ds ++ List.replicate (n - k).toNat '0'
  else if 0 < n ∧ n ≤ 21 then ds.take n.toNat ++ '.' :: ds.drop n.toNat
  else if -6 < n ∧ n ≤ 0 then '0' :: '.' :: (List.replicate (-n).toNat '0' ++ ds)
  else
    let ex := n - 1
    let expo := 'e' :: (if ex < 0 then '-' else '+') :: digitChars ex.natAbs
    match ds with
    | [] => expo
    | [d] => d :: expo
    | d :: rest => d :: '.' :: (rest ++ expo)

/-- `Number::toString(x)` in radix 10, which is what `JSON.stringify` writes
for a finite number: `0` for zero, and otherwise the sign and the digits of the
significand `s` with the decimal point at `n = k + e`. -/
def numberText : JsNum → List Char
  | .zero => ['0']
  | .nz neg q r e =>
    let ds := digitChars (JsNum.significand q r)
    let body := pointText ds (ds.length + e)
    if neg then '-' :: body else body

/-- The input after a number does not continue it. -/
def NumEnd (rest : List Char) : Prop :=
  ∀ c, rest.head? = some c → c.isDigit = false ∧ c ≠ '.' ∧ c ≠ 'e' ∧ c ≠ 'E'

/-- The two-character escapes of `QuoteJSONString`, and the `\u00XX` form for
the other control characters; every other character stands for itself. -/
def quoteChar (c : Char) : List Char :=
  if c.toNat = 8 then [backslash, 'b']
  else if c.toNat = 9 then [backslash, 't']
  else if c.toNat = 10 then [backslash, 'n']
  else if c.toNat = 12 then [backslash, 'f']
  else if c.toNat = 13 then [backslash, 'r']
  else if c = dquote then [backslash, dquote]
  else if c = backslash then [backslash, backslash]
  else if c.toNat < 32 then
    [backslash, 'u', '0', '0', Nat.digitChar (c.toNat / 16), Nat.digitChar (c.toNat % 16)]
  else [c]

/-- `QuoteJSONString(text)` (ECMA-262 25.5.2.3). -/
def quoteJSONString (s : List Char) : List Char :=
  dquote :: (s.flatMap quoteChar ++ [dquote])

/-- The text of one record: its own properties in creation order
`id, date, startTime, endTime, duration`, no white space (no `space` argument
is given to `JSON.stringify`). -/
def recordText (r : Record) : List Char :=
  lbrace :: (quoteJSONString "id".toList ++ ':' :: (numberText r.id ++ ',' ::
    (quoteJSONString "date".toList ++ ':' :: (quoteJSONString r.date ++ ',' ::
    (quoteJSONString "startTime".toList ++ ':' :: (quoteJSONString r.startTime ++ ',' ::
    (quoteJSONString "endTime".toList ++ ':' :: (quoteJSONString r.endTime ++ ',' ::
    (quoteJSONString "duration".toList ++ ':' :: (numberText r.duration ++ [rbrace]))))))))))

/-- The elements of the array, separated by commas, up to the closing bracket. -/
def elemsText : List Record → List Char
  | [] => [']']
  | [r] => recordText r ++ [']']
  | r :: rs => recordText r ++ ',' :: elemsText rs

/-- `JSON.stringify(records)` for an array of records. -/
def stringify (rs : List Record) : List Char := '[' :: elemsText rs

/-- Read the literal text `lit` off the front of the input. -/
def expect : List Char → List Char → Option (List Char)
  | [], s => some s
  | _ :: _, [] => none
  | c :: lit, d :: s => if c = d then expect lit s else none

/-- The fraction of a JSON number, `. digit+`, when the input starts with one:
its digits and the rest of the input. -/
def parseFrac : List Char → Option (List Char × List Char)
  | '.' :: t =>
    if t.takeWhile Char.isDigit = [] then none
    else some (t.takeWhile Char.isDigit, t.dropWhile Char.isDigit)
  | s => some ([], s)

/-- The digits of an exponent. -/
def parseExpDigits (neg : Bool) (t : List Char) : Option (Int × List Char) :=
  if t.takeWhile Char.isDigit = [] then none
  else
    let v : Int := digitsValue (t.takeWhile Char.isDigit)
    some (if neg then -v else v, t.dropWhile Char.isDigit)

/-- The optional sign of an exponent, then its digits. -/
def parseExpSign : List Char → Option (Int × List Char)
  | '-' :: u => parseExpDigits true u
  | '+' :: u => parseExpDigits false u
  | t => parseExpDigits false t

/-- The exponent of a JSON number, `(e|E) (+|-)? digit+`, when the input starts
with one: its value and the rest of the input. -/
def parseExp : List Char → Option (Int × List Char)
  | 'e' :: t => parseExpSign t
  | 'E' :: t => parseExpSign t
  | s => some (0, s)

/-- A JSON number after its sign: `int frac? exp?`, where `int` is `0` or a run
of digits that does not start with `0`. -/
def parseUnsigned (neg : Bool) (s : List Char) : Option (JsNum × List Char) :=
  let ip := s.takeWhile Char.isDigit
  if ip = [] ∨ (1 < ip.length ∧ ip.head? = some '0') then none
  else do
    let (fp, s3) ← parseFrac (s.dropWhile Char.isDigit)
    let (ex, s4) ← parseExp s3
    pure (JsNum.ofScaled neg (digitsValue (ip ++ fp)) (ex - fp.length), s4)

/-- A JSON number (`-? int frac? exp?`) at the front of the input, and the rest
of the input.  `none` is a syntax error. -/
def parseNumber : List Char → Option (JsNum × List Char)
  | '-' :: t => parseUnsigned true t
  | s => parseUnsigned false s

/-- The value of a hexadecimal digit. -/
def hexValue (c : Char) : Option Nat :=
  if c.isDigit then some (c.toNat - 48)
  else if 97 ≤ c.toNat ∧ c.toNat ≤ 102 then some (c.toNat - 87)
  else if 65 ≤ c.toNat ∧ c.toNat ≤ 70 then some (c.toNat - 55)
  else none

/-- The character of `\uXXXX`.  A surrogate code unit is not a `Char`; such
text is outside the modelled fragment: `none`. -/
def hex4 (a b c d : Char) : Option Char := do
  let x ← hexValue a
  let y ← hexValue b
  let z ← hexValue c
  let w ← hexValue d
  let n := ((x * 16 + y) * 16 + z) * 16 + w
  if n.isValidChar then some (Char.ofNat n) else none

/-- The character a one-letter escape stands for. -/
def unescape (c : Char) : Option Char :=
  if c = dquote then some dquote
  else if c = backslash then some backslash
  else if c = '/' then some '/'
  else if c = 'b' then some (Char.ofNat 8)
  else if c = 'f' then some (Char.ofNat 12)
  else if c = 'n' then some (Char.ofNat 10)
  else if c = 'r' then some (Char.ofNat 13)
  else if c = 't' then some (Char.ofNat 9)
  else none

/-- The characters of a JSON string after its opening quotation mark, up to the
closing one, and the rest of the input.  `fuel` bounds the number of characters
read. -/
def parseStringBody : Nat → List Char → Option (List Char × List Char)
  | 0, _ => none
  | _ + 1, [] => none
  | fuel + 1, c :: cs =>
    if c = dquote then some ([], cs)
    else if c = backslash then
      match cs with
      | [] => none
      | e :: cs1 =>
        if e = 'u' then
          match cs1 with
          | a :: b :: x :: y :: cs2 => do
            let ch ← hex4 a b x y
            let (str, out) ← parseStringBody fuel cs2
            pure (ch :: str, out)
          | _ => none
        else do
          let ch ← unescape e
          let (str, out) ← parseStringBody fuel cs1
          pure (ch :: str, out)
    else if c.toNat < 32 then none
    else do
      let (str, out) ← parseStringBody fuel cs
      pure (c :: str, out)

/-- A JSON string at the front of the input. -/
def parseString : List Char → Option (List Char × List Char)
  | [] => none
  | c :: cs => if c = dquote then parseStringBody (cs.length + 1) cs else none

/-- One record object, in the layout `recordText` writes.  JSON text of any
other shape (white space, other keys or key order, other value types) is
outside the modelled fragment: `none`. -/
def parseRecord (s : List Char) : Option (Record × List Char) := do
  let s ← expect (lbrace :: (quoteJSONString "id".toList ++ [':'])) s
  let (id, s) ← parseNumber s
  let s ← expect (',' :: (quoteJSONString "date".toList ++ [':'])) s
  let (date, s) ← parseString s
  let s ← expect (',' :: (quoteJSONString "startTime".toList ++ [':'])) s
  let (startTime, s) ← parseString s
  let s ← expect (',' :: (quoteJSONString "endTime".toList ++ [':'])) s
  let (endTime, s) ← parseString s
  let s ← expect (',' :: (quoteJSONString "duration".toList ++ [':'])) s
  let (duration, s) ← parseNumber s
  let s ← expect [rbrace] s
  pure (⟨id, date, startTime, endTime, duration⟩, s)

/-- The elements of a nonempty array up to its closing bracket.  `fuel` bounds
the number of elements. -/
def parseElems : Nat → List Char → Option (List Record × List Char)
  | 0, _ => none
  | fuel + 1, s => do
    let (r, s1) ← parseRecord s
    match s1 with
    | ',' :: s2 => do
      let (rs, s3) ← parseElems fuel s2
      pure (r :: rs, s3)
    | ']' :: s2 => pure ([r], s2)
    | _ => none

/-- `JSON.parse(text)` on the text of an array of records; nothing may follow
the closing bracket.  `none` is a thrown `SyntaxError` or a text outside the
modelled fragment. -/
def parse : List Char → Option (List Record)
  | '[' :: ']' :: [] => some []
  | '[' :: t =>
    match parseElems t.length t with
    | some (rs, []) => some rs
    | _ => none
  | _ => none

end Json

/-! ## Dates (`new Date(record.date)`) -/

/-- Leap years of the proleptic Gregorian calendar. -/
def isLeapYear (y : Nat) : Bool :=
  y % 4 = 0 ∧ (y % 100 ≠ 0 ∨ y % 400 = 0)

/-- Number of days of month `m` (1 to 12) in year `y`. -/
def daysInMonth (y m : Nat) : Nat :=
  if m = 2 then (if isLeapYear y then 29 else 28)
  else if m = 4 ∨ m = 6 ∨ m = 9 ∨ m = 11 then 30
  else 31

/-- Number of days of year `y` before the first of month `m` (1 to 12): the
month boundaries of `MonthFromTime` (ECMA-262 21.4.1.4). -/
def daysBeforeMonth (y m : Nat) : Nat :=
  let leap := if isLeapYear y then 1 else 0
  match m with
  | 1 => 0
  | 2 => 31
  | 3 => 59 + leap
  | 4 => 90 + leap
  | 5 => 120 + leap
  | 6 => 151 + leap
  | 7 => 181 + leap
  | 8 => 212 + leap
  | 9 => 243 + leap
  | 10 => 273 + leap
  | 11 => 304 + leap
  | _ => 334 + leap

/-- `DayFromYear(y)` of ECMA-262 21.4.1.3: the day number of 1 January of year
`y`, counted from 1 January 1970. -/
def dayFromYear (y : Int) : Int :=
  365 * (y - 1970) + (y - 1969) / 4 - (y - 1901) / 100 + (y - 1601) / 400

/-- The fields of a date-only ISO text `YYYY-MM-DD` naming a day of the
calendar. -/
def ymd : List Char → Option (Nat × Nat × Nat)
  | [y1, y2, y3, y4, '-', m1, m2, '-', d1, d2] =>
    if [y1, y2, y3, y4, m1, m2, d1, d2].all Char.isDigit = true then
      let y := digitsValue [y1, y2, y3, y4]
      let m := digitsValue [m1, m2]
      let d := digitsValue [d1, d2]
      if 1 ≤ m ∧ m ≤ 12 ∧ 1 ≤ d ∧ d ≤ daysInMonth y m then some (y, m, d) else none
    else none
  | _ => none

/-- The time value of `new Date(text)` for a date-only ISO text, which is read
as midnight UTC: milliseconds since the epoch.  `none` is the time value `NaN`
of an invalid date; for text in another format the value depends on the
engine, and the model takes `NaN` there too. -/
def dateValue (s : List Char) : Option Int :=
  (ymd s).map fun (y, m, d) =>
    (dayFromYear y + daysBeforeMonth y m + d - 1) * 86400000

/-! ## The list view (`renderRecords`, lines 92-119) -/

/-- The comparator of `renderRecords`.  A `NaN` result (a date without a time
value) is read by `Array.prototype.sort` as `+0`. -/
def compareRecords (a b : Record) : ℚ :=
  if a.date ≠ b.date then
    match dateValue b.date, dateValue a.date with
    | some tb, some ta => ((tb - ta : Int) : ℚ)
    | _, _ => 0
  else b.id.toRat - a.id.toRat

/-- Insert `a` in front of the first element it does not have to follow. -/
def insertSorted (cmp : Record → Record → ℚ) (a : Record) : List Record → List Record
  | [] => [a]
  | b :: bs => if cmp a b ≤ 0 then a :: b :: bs else b :: insertSorted cmp a bs

/-- `[...records].sort(cmp)`: a stable sort of a copy.  ECMA-262 requires
`sort` to be stable and fixes its result for a consistent comparator; stable
insertion stands for it. -/
def sortRecords (cmp : Record → Record → ℚ) (rs : List Record) : List Record :=
  rs.foldr (insertSorted cmp) []

/-- What `recordsList` shows: the paragraph `No records found.`, or a list with
one item per record, in display order. -/
inductive ListView where
  | noRecords
  | items (shown : List Record)
deriving DecidableEq, Repr

/-- `renderRecords()`. -/
def renderRecords (records : List Record) : ListView :=
  let sortedRecords := sortRecords compareRecords records
  if sortedRecords.length = 0 then .noRecords else .items sortedRecords

/-- The records in the order `renderRecords` displays them. -/
def ListView.shown : ListView → List Record
  | .noRecords => []
  | .items rs => rs

/-! ## The summary (`analyzeSleep`, lines 130-173) -/

/-- The object `dailySleep`: its own properties in creation order. -/
abbrev DailySleep := List (List Char × ℚ)

/-- `dailySleep[key]`; `none` is `undefined`. -/
def DailySleep.get : DailySleep → List Char → Option ℚ
  | [], _ => none
  | (k, v) :: m, key => if k = key then some v else DailySleep.get m key

/-- `dailySleep[key] = v`: overwrite in place, or create the property last. -/
def DailySleep.set : DailySleep → List Char → ℚ → DailySleep
  | [], key, v => [(key, v)]
  | (k, w) :: m, key, v =>
    if k = key then (k, v) :: m else (k, w) :: DailySleep.set m key v

/-- The body of the grouping loop for one record:
`if (!dailySleep[date]) dailySleep[date] = 0; dailySleep[date] += duration`.
`!x` holds when `x` is `undefined` or `0`. -/
def groupStep (dailySleep : DailySleep) (record : Record) : DailySleep :=
  let falsy := match dailySleep.get record.date with
    | none => true
    | some v => decide (v = 0)
  let dailySleep := if falsy then dailySleep.set record.date 0 else dailySleep
  -- the property exists at this point
  dailySleep.set record.date ((dailySleep.get record.date).getD 0 + record.duration.toRat)

/-- The grouping loop of `analyzeSleep` (lines 140-146) and of `updateCharts`
(lines 180-184). -/
def groupByDate (records : List Record) : DailySleep :=
  records.foldl groupStep []

/-- What `analyzeSleep` writes: `totalDays`, the number formatted into
`averageSleep`, and the text of `sleepStatus`. -/
structure Summary where
  totalDays : Nat
  average : ℚ
  sleepStatus : String
deriving DecidableEq, Repr

/-- `analyzeSleep()`. -/
def analyzeSleep (records : List Record) : Summary :=
  if records.length = 0 then ⟨0, 0, "-"⟩
  else
    let dailySleep := groupByDate records
    let uniqueDays := dailySleep.length
    let totalSleepAllDays := (dailySleep.map Prod.snd).foldl (fun a b => a + b) 0
    let average := totalSleepAllDays / (uniqueDays : ℚ)
    let threshold : ℚ := 7.5
    let diff := average - threshold
    if diff > 0 then ⟨uniqueDays, average, "Over Sleep"⟩
    else if diff < 0 then ⟨uniqueDays, average, "Under Sleep"⟩
    else ⟨uniqueDays, average, "Perfect Balance"⟩

/-! ## State, persistence and handlers -/

/-- The mutable state of the page: the array `records`, the value stored under
`sleepRecords` (`none` when the key is absent), and what the list view and the
summary panel show.  The two charts depend on the current date and on the
chart library and are left out. -/
structure State where
  records : List Record
  store : Option (List Char)
  recordsList : ListView
  summary : Summary
deriving DecidableEq, Repr

/-- `saveData()`. -/
def saveData (st : State) : State :=
  { st with store := some (Json.stringify st.records) }

/-- `loadData()`.  `if (data)` fails for `null` and for the empty string.
`none` is an exception thrown by `JSON.parse`. -/
def loadData (st : State) : Option State :=
  match st.store with
  | none => some st
  | some [] => some st
  | some data => (Json.parse data).map fun rs => { st with records := rs }

/-- `updateUI()`. -/
def updateUI (st : State) : State :=
  { st with recordsList := renderRecords st.records, summary := analyzeSleep st.records }

/-- The page before `DOMContentLoaded`, over a given stored value. -/
def initialState (store : Option (List Char)) : State :=
  ⟨[], store, .noRecords, ⟨0, 0, ""⟩⟩

/-- The `DOMContentLoaded` handler (lines 8-11). -/
def startup (store : Option (List Char)) : Option State :=
  (loadData (initialState store)).map updateUI

/-- The result of the submit handler: an alert with the state untouched, or the
new state. -/
inductive SubmitResult where
  | alert (message : String) (st : State)
  | done (st : State)
deriving DecidableEq, Repr

/-- The `submit` handler of `sleepForm` (lines 13-39); `now` is the value of
`Date.now()`.  `none` when `calculateDuration` leaves the modelled fragment. -/
def submit (st : State) (now : Nat) (date startTime endTime : List Char) :
    Option SubmitResult :=
  if date = [] ∨ startTime = [] ∨ endTime = [] then
    some (.alert "Please fill all fields" st)
  else do
    let duration ← calculateDuration startTime endTime
    let record : Record := ⟨JsNum.ofScaled false now 0, date, startTime, endTime, duration⟩
    let st := { st with records := st.records ++ [record] }
    pure (.done (updateUI (saveData st)))

/-- `window.deleteRecord(id)` (lines 122-128). -/
def deleteRecord (st : State) (confirmed : Bool) (id : JsNum) : State :=
  if confirmed then
    updateUI (saveData { st with records := st.records.filter fun r => r.id ≠ id })
  else st

/-- Three records, two of them on one date. -/
def sampleRecords : List Record :=
  [⟨JsNum.ofScaled false 1704150000000 0, "2024-01-01".toList, "23:00".toList, "07:00".toList,
      JsNum.ofScaled false 8 0⟩,
   ⟨JsNum.ofScaled false 1704236400000 0, "2024-01-02".toList, "22:30".toList, "06:00".toList,
      JsNum.ofScaled false 75 (-1)⟩,
   ⟨JsNum.ofScaled false 1704236400001 0, "2024-01-01".toList, "13:00".toList, "13:20".toList,
      JsNum.ofScaled false 33 (-2)⟩]

/-- A page holding the sample records, saved and rendered. -/
def sampleState : State :=
  updateUI (saveData ⟨sampleRecords, none, .noRecords, ⟨0, 0, ""⟩⟩)

/-! ## Notions of the specification -/

/-- Minutes from `s` to `e` on the clock, `e` on the next day when it is
earlier than `s`. -/
def elapsedMinutes (s e : Nat) : Nat :=
  if s ≤ e then e - s else e + 1440 - s

/-- Rounding to two decimal places. -/
def roundTo2 (x : ℚ) : ℚ := (round (x * 100) : ℚ) / 100

/-- The calendar date of a valid `YYYY-MM-DD` text as the number `YYYYMMDD`,
which orders dates chronologically. -/
def dateKey (s : List Char) : Nat :=
  match ymd s with
  | some (y, m, d) => 10000 * y + 100 * m + d
  | none => 0

/-- Display order: later dates first, and larger ids first on one date. -/
def DisplayOrder (a b : Record) : Prop :=
  dateKey b.date ≤ dateKey a.date ∧ (a.date = b.date → b.id.toRat ≤ a.id.toRat)

namespace JsNum

theorem stripZeros_value (fuel m : Nat) (e : Int) :
    ((stripZeros fuel m e).1 : ℚ) * (10 : ℚ) ^ (stripZeros fuel m e).2 = (m : ℚ) * (10 : ℚ) ^ e := by
  induction fuel generalizing m e with
  | zero => simp [stripZeros]
  | succ fuel ih =>
    unfold stripZeros
    split
    · next h =>
      rw [ih]
      obtain ⟨k, hk⟩ : 10 ∣ m := Nat.dvd_of_mod_eq_zero h.1
      subst hk
      rw [Nat.mul_div_cancel_left k (by norm_num), zpow_add_one₀ (by norm_num)]
      push_cast
      ring
    · rfl

theorem stripZeros_last (fuel m : Nat) (e : Int) (hm : m ≤ fuel)
    (h : (stripZeros fuel m e).1 % 10 = 0) : m = 0 := by
  induction fuel generalizing m e with
  | zero => omega
  | succ fuel ih =>
    unfold stripZeros at h
    split at h
    · next hc =>
      have := ih (m / 10) (e + 1) (by omega) h
      omega
    · next hc =>
      simp only at h
      by_contra hne
      exact hc ⟨h, hne⟩

theorem toRat_ofScaled (neg : Bool) (m : Nat) (e : Int) :
    (ofScaled neg m e).toRat = (if neg then -1 else 1) * (m : ℚ) * (10 : ℚ) ^ e := by
  unfold ofScaled
  simp only
  split
  · next h =>
    have := stripZeros_last m m e le_rfl h
    subst this
    simp [toRat]
  · next h =>
    simp only [toRat, significand]
    have hs : 10 * ((stripZeros m m e).1 / 10) + ((stripZeros m m e).1 % 10 - 1) + 1
        = (stripZeros m m e).1 := by omega
    rw [hs, mul_assoc, stripZeros_value, mul_assoc]

theorem ofScaled_zero (neg : Bool) (e : Int) : ofScaled neg 0 e = .zero := by
  simp [ofScaled, stripZeros]

end JsNum

theorem toRat_parseFloatToFixed2 (x : ℚ) (hx : 0 ≤ x) :
    (parseFloatToFixed2 x).toRat = roundTo2 x := by
  have h0 : 0 ≤ ⌊x * 100 + 1 / 2⌋ := Int.floor_nonneg.mpr (by positivity)
  rw [parseFloatToFixed2, if_neg (not_lt.mpr hx), JsNum.toRat_ofScaled, roundTo2, round_eq]
  have hc : ((⌊x * 100 + 1 / 2⌋.toNat : ℕ) : ℚ) = ((⌊x * 100 + 1 / 2⌋ : ℤ) : ℚ) := by
    exact_mod_cast congrArg (Int.cast : ℤ → ℚ) (Int.toNat_of_nonneg h0)
  rw [hc]
  norm_num
  ring

theorem digitChar_isDigit (d : Nat) (hd : d < 10) :
    (Nat.digitChar d).isDigit = true ∧ (Nat.digitChar d).toNat - 48 = d ∧
      Nat.digitChar d ≠ ':' := by
  interval_cases d <;> decide

theorem hoursMinutes_hhmm (h m : Nat) (hh : h < 100) (hm : m < 100) :
    hoursMinutes (hhmm h m) = some (h, m) := by
  obtain ⟨a1, a2, a3⟩ := digitChar_isDigit (h / 10) (by omega)
  obtain ⟨b1, b2, b3⟩ := digitChar_isDigit (h % 10) (by omega)
  obtain ⟨c1, c2, c3⟩ := digitChar_isDigit (m / 10) (by omega)
  obtain ⟨d1, d2, d3⟩ := digitChar_isDigit (m % 10) (by omega)
  simp [hoursMinutes, hhmm, splitColon, jsNumber, digitsValue, a1, a2, a3, b1, b2, b3, c1, c2,
    c3, d1, d2, d3]
  omega

theorem calculateDuration_hhmm (sh sm eh em : Nat) (hsh : sh ≤ 23) (hsm : sm ≤ 59)
    (heh : eh ≤ 23) (hem : em ≤ 59) :
    calculateDuration (hhmm sh sm) (hhmm eh em) =
      some (parseFloatToFixed2 ((elapsedMinutes (60 * sh + sm) (60 * eh + em) : ℚ) / 60)) := by
  rw [calculateDuration, hoursMinutes_hhmm sh sm (by omega) (by omega),
    hoursMinutes_hhmm eh em (by omega) (by omega)]
  simp only [Option.pure_def, Option.bind_eq_bind, Option.some_bind, Option.some.injEq]
  congr 2
  unfold elapsedMinutes
  split_ifs with h1 h2 h2
  · omega
  · push_cast [Nat.cast_sub (show 60 * sh + sm ≤ 60 * eh + em + 1440 by omega)]
    ring
  · push_cast [Nat.cast_sub h2]
    ring
  · omega

theorem elapsedMinutes_lt (s e : Nat) (hs : s < 1440) (he : e < 1440) :
    elapsedMinutes s e < 1440 := by
  unfold elapsedMinutes
  split_ifs <;> omega

theorem roundTo2_bounds (d : Nat) (hd : d < 1440) :
    0 ≤ roundTo2 ((d : ℚ) / 60) ∧ roundTo2 ((d : ℚ) / 60) < 24 := by
  have hd' : (d : ℚ) ≤ 1439 := by exact_mod_cast Nat.lt_succ_iff.mp hd
  have h0 : (0 : ℚ) ≤ (d : ℚ) / 60 * 100 + 1 / 2 := by positivity
  unfold roundTo2
  rw [round_eq]
  constructor
  · have : (0 : ℤ) ≤ ⌊(d : ℚ) / 60 * 100 + 1 / 2⌋ := Int.floor_nonneg.mpr h0
    have : (0 : ℚ) ≤ ((⌊(d : ℚ) / 60 * 100 + 1 / 2⌋ : ℤ) : ℚ) := by exact_mod_cast this
    positivity
  · have h1 : ((⌊(d : ℚ) / 60 * 100 + 1 / 2⌋ : ℤ) : ℚ) ≤ (d : ℚ) / 60 * 100 + 1 / 2 :=
      Int.floor_le _
    rw [div_lt_iff₀ (by norm_num)]
    linarith

theorem submit_done (st : State) (now : Nat) (date startTime endTime : List Char) (d : JsNum)
    (h1 : date ≠ []) (h2 : startTime ≠ []) (h3 : endTime ≠ [])
    (hd : calculateDuration startTime endTime = some d) :
    submit st now date startTime endTime = some (.done (updateUI (saveData
      { st with records := st.records ++
          [⟨JsNum.ofScaled false now 0, date, startTime, endTime, d⟩] }))) := by
  unfold submit
  rw [if_neg (by simp [h1, h2, h3]), hd]
  rfl

/-- A whole number of minutes, in hundredths of an hour, is at least `1/6` away
from every half-integer: rounding it to two decimals never meets a tie. -/
theorem hundredths_not_tie (d k : Int) :
    1 / 6 ≤ |(d : ℚ) / 60 * 100 - ((k : ℚ) + 1 / 2)| := by
  have e : (d : ℚ) / 60 * 100 - ((k : ℚ) + 1 / 2) = ((10 * d - 6 * k - 3 : Int) : ℚ) / 6 := by
    push_cast
    ring
  have h1 : (1 : Int) ≤ |10 * d - 6 * k - 3| := by
    apply Int.one_le_abs
    omega
  have h2 : ((1 : Int) : ℚ) ≤ ((|10 * d - 6 * k - 3| : Int) : ℚ) := Int.cast_le.mpr h1
  rw [e, abs_div, abs_of_pos (show (0 : ℚ) < 6 by norm_num), ← Int.cast_abs]
  have h3 : (1 : ℚ) ≤ ((|10 * d - 6 * k - 3| : Int) : ℚ) := by exact_mod_cast h2
  have h6 : (0 : ℚ) < 6 := by norm_num
  calc (1 : ℚ) / 6 ≤ ((|10 * d - 6 * k - 3| : Int) : ℚ) / 6 := by
        rw [div_le_div_iff₀ h6 h6]
        linarith

/-! ## Claims about the duration calculator -/

/-- C1: for times `sh:sm` and `eh:em` of a day, `calculateDuration` returns
`d / 60` rounded to two decimal places, where `d` is `e - s` minutes when
`e ≥ s` and `e + 1440 - s` otherwise; and `calculateDuration("23:00", "07:00")`
is 8. -/
theorem calculateDuration_rounds (sh sm eh em : Nat) (hsh : sh ≤ 23) (hsm : sm ≤ 59)
    (heh : eh ≤ 23) (hem : em ≤ 59) :
    (∃ x, calculateDuration (hhmm sh sm) (hhmm eh em) = some x ∧
      x.toRat = roundTo2 ((elapsedMinutes (60 * sh + sm) (60 * eh + em) : ℚ) / 60)) ∧
    (∃ y, calculateDuration "23:00".toList "07:00".toList = some y ∧ y.toRat = 8) := by
  refine ⟨⟨_, calculateDuration_hhmm sh sm eh em hsh hsm heh hem, ?_⟩, ?_⟩
  · exact toRat_parseFloatToFixed2 _ (by positivity)
  · refine ⟨_, calculateDuration_hhmm 23 0 7 0 (by norm_num) (by norm_num) (by norm_num)
      (by norm_num), ?_⟩
    rw [toRat_parseFloatToFixed2 _ (by positivity), roundTo2, round_eq]
    norm_num [elapsedMinutes]

theorem calculateDuration_rounds_witness :
    (∃ x, calculateDuration (hhmm 23 0) (hhmm 7 0) = some x ∧
      x.toRat = roundTo2 ((elapsedMinutes (60 * 23 + 0) (60 * 7 + 0) : ℚ) / 60)) ∧
    (∃ y, calculateDuration "23:00".toList "07:00".toList = some y ∧ y.toRat = 8) :=
  calculateDuration_rounds 23 0 7 0 (by decide) (by decide) (by decide) (by decide)

/-- C10: for times of a day, `calculateDuration` is at least 0 and less than
24, and the record the submit handler appends for them has a duration of at
least 0. -/
theorem calculateDuration_range (sh sm eh em : Nat) (hsh : sh ≤ 23) (hsm : sm ≤ 59)
    (heh : eh ≤ 23) (hem : em ≤ 59) :
    ∃ x, calculateDuration (hhmm sh sm) (hhmm eh em) = some x ∧
      0 ≤ x.toRat ∧ x.toRat < 24 ∧
      ∀ (st : State) (now : Nat) (date : List Char), date ≠ [] →
        ∃ st1 r, submit st now date (hhmm sh sm) (hhmm eh em) = some (.done st1) ∧
          st1.records = st.records ++ [r] ∧ r.duration = x ∧ 0 ≤ r.duration.toRat := by
  have hc := calculateDuration_hhmm sh sm eh em hsh hsm heh hem
  have hb := roundTo2_bounds (elapsedMinutes (60 * sh + sm) (60 * eh + em))
    (elapsedMinutes_lt _ _ (by omega) (by omega))
  have hv := toRat_parseFloatToFixed2
    ((elapsedMinutes (60 * sh + sm) (60 * eh + em) : ℚ) / 60) (by positivity)
  refine ⟨_, hc, hv ▸ hb.1, hv ▸ hb.2, ?_⟩
  intro st now date hdate
  exact ⟨_, _, submit_done st now date _ _ _ hdate (by simp [hhmm]) (by simp [hhmm]) hc, rfl, rfl,
    hv ▸ hb.1⟩

theorem calculateDuration_range_witness :
    ∃ x, calculateDuration (hhmm 23 0) (hhmm 7 0) = some x ∧
      0 ≤ x.toRat ∧ x.toRat < 24 ∧
      ∀ (st : State) (now : Nat) (date : List Char), date ≠ [] →
        ∃ st1 r, submit st now date (hhmm 23 0) (hhmm 7 0) = some (.done st1) ∧
          st1.records = st.records ++ [r] ∧ r.duration = x ∧ 0 ≤ r.duration.toRat :=
  calculateDuration_range 23 0 7 0 (by decide) (by decide) (by decide) (by decide)

/-! ## Facts about the grouping loop -/

namespace DailySleep

end DailySleep

/-- C6: a confirmed `deleteRecord(id)` leaves exactly the records whose id
differs from `id`, in their original order, and persists them; when no record
has that id the record list is unchanged.  The handler always returns. -/
theorem deleteRecord_confirmed (st : State) (id : JsNum) :
    (deleteRecord st true id).records = st.records.filter (fun r => decide (r.id ≠ id)) ∧
    (deleteRecord st true id).records.Sublist st.records ∧
    (∀ r, r ∈ (deleteRecord st true id).records ↔ r ∈ st.records ∧ r.id ≠ id) ∧
    ((∀ r ∈ st.records, r.id ≠ id) → (deleteRecord st true id).records = st.records) ∧
    (deleteRecord st true id).store = some (Json.stringify (deleteRecord st true id).records) ∧
    (deleteRecord st true id).recordsList = renderRecords (deleteRecord st true id).records := by
  have h : (deleteRecord st true id).records = st.records.filter (fun r => decide (r.id ≠ id)) :=
    rfl
  refine ⟨h, ?_, ?_, ?_, rfl, rfl⟩
  · rw [h]
    exact List.filter_sublist _
  · intro r
    rw [h]
    simp
  · intro hne
    rw [h, List.filter_eq_self]
    intro r hr
    simpa using hne r hr

theorem isDigit_iff (c : Char) : c.isDigit = true ↔ 48 ≤ c.toNat ∧ c.toNat ≤ 57 := by
  simp [Char.isDigit, Char.toNat, UInt32.le_def, Fin.le_def]
  rfl

theorem char_eq_of_toNat_eq {a b : Char} (h : a.toNat = b.toNat) : a = b := by
  rw [← Char.ofNat_toNat a, ← Char.ofNat_toNat b, h]

theorem digit_eq {a b : Char} (ha : a.isDigit = true) (hb : b.isDigit = true)
    (h : a.toNat - 48 = b.toNat - 48) : a = b := by
  rw [isDigit_iff] at ha hb
  exact char_eq_of_toNat_eq (by omega)

theorem digit_lt {a : Char} (ha : a.isDigit = true) : a.toNat - 48 < 10 := by
  rw [isDigit_iff] at ha
  omega

theorem ymd_shape {s : List Char} {y m d : Nat} (h : ymd s = some (y, m, d)) :
    ∃ y1 y2 y3 y4 m1 m2 d1 d2 : Char,
      s = [y1, y2, y3, y4, '-', m1, m2, '-', d1, d2] ∧
      (y1.isDigit = true ∧ y2.isDigit = true ∧ y3.isDigit = true ∧ y4.isDigit = true ∧
        m1.isDigit = true ∧ m2.isDigit = true ∧ d1.isDigit = true ∧ d2.isDigit = true) ∧
      y = 10 * (10 * (10 * (y1.toNat - 48) + (y2.toNat - 48)) + (y3.toNat - 48))
        + (y4.toNat - 48) ∧
      m = 10 * (m1.toNat - 48) + (m2.toNat - 48) ∧
      d = 10 * (d1.toNat - 48) + (d2.toNat - 48) ∧
      1 ≤ m ∧ m ≤ 12 ∧ 1 ≤ d ∧ d ≤ daysInMonth y m := by
  unfold ymd at h
  split at h
  · next y1 y2 y3 y4 m1 m2 d1 d2 =>
    split at h
    · next hd =>
      simp only [List.all_cons, List.all_nil, Bool.and_true, Bool.and_eq_true] at hd
      simp only [digitsValue, List.foldl_cons, List.foldl_nil, Nat.mul_zero, Nat.zero_add] at h
      split at h
      · next hv =>
        simp only [Option.some.injEq, Prod.mk.injEq] at h
        obtain ⟨rfl, rfl, rfl⟩ := h
        exact ⟨y1, y2, y3, y4, m1, m2, d1, d2, rfl, hd, rfl, rfl, rfl, hv⟩
      · cases h
    · cases h
  · cases h

theorem ymd_bounds {s : List Char} {y m d : Nat} (h : ymd s = some (y, m, d)) :
    y < 10000 ∧ 1 ≤ m ∧ m ≤ 12 ∧ 1 ≤ d ∧ d ≤ daysInMonth y m := by
  obtain ⟨y1, y2, y3, y4, m1, m2, d1, d2, -, ⟨a1, a2, a3, a4, -⟩, hy, -, -, hv⟩ := ymd_shape h
  refine ⟨?_, hv⟩
  have := digit_lt a1
  have := digit_lt a2
  have := digit_lt a3
  have := digit_lt a4
  omega

theorem ymd_injective {s t : List Char} {y m d : Nat} (hs : ymd s = some (y, m, d))
    (ht : ymd t = some (y, m, d)) : s = t := by
  obtain ⟨y1, y2, y3, y4, m1, m2, d1, d2, rfl, ⟨a1, a2, a3, a4, a5, a6, a7, a8⟩, hy, hm, hd, -⟩ :=
    ymd_shape hs
  obtain ⟨z1, z2, z3, z4, n1, n2, e1, e2, rfl, ⟨b1, b2, b3, b4, b5, b6, b7, b8⟩, hy', hm', hd', -⟩ :=
    ymd_shape ht
  have := digit_lt a1; have := digit_lt a2; have := digit_lt a3
  have := digit_lt a4; have := digit_lt a5; have := digit_lt a6
  have := digit_lt a7; have := digit_lt a8
  have := digit_lt b1; have := digit_lt b2; have := digit_lt b3
  have := digit_lt b4; have := digit_lt b5; have := digit_lt b6
  have := digit_lt b7; have := digit_lt b8
  rw [digit_eq a1 b1 (by omega), digit_eq a2 b2 (by omega), digit_eq a3 b3 (by omega),
    digit_eq a4 b4 (by omega), digit_eq a5 b5 (by omega), digit_eq a6 b6 (by omega),
    digit_eq a7 b7 (by omega), digit_eq a8 b8 (by omega)]

theorem daysBeforeMonth_succ (y m : Nat) (h1 : 1 ≤ m) (h2 : m < 12) :
    daysBeforeMonth y (m + 1) = daysBeforeMonth y m + daysInMonth y m := by
  unfold daysBeforeMonth daysInMonth
  interval_cases m <;> simp <;> split_ifs <;> omega

theorem daysBeforeMonth_mono (y m n : Nat) (h1 : 1 ≤ m) (h2 : m ≤ n) (h3 : n ≤ 12) :
    daysBeforeMonth y m ≤ daysBeforeMonth y n := by
  induction n with
  | zero => omega
  | succ n ih =>
    rcases Nat.eq_or_lt_of_le h2 with h | h
    · rw [h]
    · have := ih (by omega) (by omega)
      rw [daysBeforeMonth_succ y n (by omega) (by omega)]
      omega

theorem daysBeforeMonth_last (y : Nat) :
    daysBeforeMonth y 12 + daysInMonth y 12 = 365 + (if isLeapYear y then 1 else 0) := by
  unfold daysBeforeMonth daysInMonth
  simp
  omega

theorem dayFromYear_succ (y : Nat) :
    dayFromYear ((y : Int) + 1) = dayFromYear y + 365 + (if isLeapYear y then 1 else 0) := by
  unfold dayFromYear isLeapYear
  split_ifs with h
  · simp only [decide_eq_true_eq] at h
    omega
  · simp only [decide_eq_true_eq] at h
    omega

theorem dayFromYear_mono (y z : Nat) (h : y ≤ z) : dayFromYear y ≤ dayFromYear z := by
  induction z with
  | zero =>
    have : y = 0 := by omega
    rw [this]
  | succ z ih =>
    rcases Nat.eq_or_lt_of_le h with h | h
    · rw [h]
    · have := ih (by omega)
      have h2 := dayFromYear_succ z
      push_cast
      rw [h2]
      split_ifs <;> omega

theorem daysInMonth_le (y m : Nat) : daysInMonth y m ≤ 31 := by
  unfold daysInMonth
  split_ifs <;> omega

theorem dayOfYear_le (y m d : Nat) (h1 : 1 ≤ m) (h2 : m ≤ 12) (h3 : d ≤ daysInMonth y m) :
    daysBeforeMonth y m + d ≤ 365 + (if isLeapYear y then 1 else 0) := by
  rw [← daysBeforeMonth_last]
  rcases Nat.eq_or_lt_of_le h2 with h | h
  · subst h
    omega
  · have e := daysBeforeMonth_succ y m h1 h
    have := daysBeforeMonth_mono y (m + 1) 12 (by omega) (by omega) le_rfl
    omega

/-- Later calendar dates have larger day numbers. -/
theorem dayNumber_lt {y m d z n e : Nat} (hm1 : 1 ≤ m) (hm2 : m ≤ 12) (hd1 : 1 ≤ d)
    (hd2 : d ≤ daysInMonth y m) (hn1 : 1 ≤ n) (hn2 : n ≤ 12) (he1 : 1 ≤ e)
    (he2 : e ≤ daysInMonth z n) (h : 10000 * y + 100 * m + d < 10000 * z + 100 * n + e) :
    dayFromYear y + daysBeforeMonth y m + d - 1 < dayFromYear z + daysBeforeMonth z n + e - 1 := by
  have hd31 := daysInMonth_le y m
  have he31 := daysInMonth_le z n
  rcases Nat.lt_trichotomy y z with hy | hy | hy
  · have h1 := dayOfYear_le y m d hm1 hm2 hd2
    have h2 := dayFromYear_succ y
    have h3 := dayFromYear_mono (y + 1) z hy
    push_cast at h3
    split_ifs at h1 h2 <;> omega
  · subst hy
    rcases Nat.lt_trichotomy m n with hmn | hmn | hmn
    · have e1 := daysBeforeMonth_succ y m hm1 (by omega)
      have := daysBeforeMonth_mono y (m + 1) n (by omega) (by omega) hn2
      omega
    · subst hmn
      omega
    · omega
  · omega

theorem dateValue_order {a b : List Char} (ha : (ymd a).isSome = true)
    (hb : (ymd b).isSome = true) :
    ∃ ta tb, dateValue a = some ta ∧ dateValue b = some tb ∧
      (ta ≤ tb ↔ dateKey a ≤ dateKey b) ∧ (dateKey a = dateKey b → a = b) := by
  obtain ⟨⟨y, m, d⟩, hya⟩ := Option.isSome_iff_exists.mp ha
  obtain ⟨⟨z, n, e⟩, hyb⟩ := Option.isSome_iff_exists.mp hb
  obtain ⟨-, hm1, hm2, hd1, hd2⟩ := ymd_bounds hya
  obtain ⟨-, hn1, hn2, he1, he2⟩ := ymd_bounds hyb
  have hd31 := daysInMonth_le y m
  have he31 := daysInMonth_le z n
  have hva : dateValue a =
      some ((dayFromYear y + daysBeforeMonth y m + d - 1) * 86400000) := by
    simp only [dateValue, hya, Option.map_some']
  have hvb : dateValue b =
      some ((dayFromYear z + daysBeforeMonth z n + e - 1) * 86400000) := by
    simp only [dateValue, hyb, Option.map_some']
  refine ⟨_, _, hva, hvb, ?_, ?_⟩
  · simp only [dateKey, hya, hyb]
    constructor
    · intro hle
      by_contra hlt
      have := dayNumber_lt hn1 hn2 he1 he2 hm1 hm2 hd1 hd2 (not_le.mp hlt)
      omega
    · intro hle
      rcases Nat.eq_or_lt_of_le hle with h | h
      · have hy : y = z := by omega
        have hm : m = n := by omega
        have hd : d = e := by omega
        subst hy hm hd
        exact le_rfl
      · have := dayNumber_lt hm1 hm2 hd1 hd2 hn1 hn2 he1 he2 h
        omega
  · simp only [dateKey, hya, hyb]
    intro h
    have hy : y = z := by omega
    have hm : m = n := by omega
    have hd : d = e := by omega
    subst hy hm hd
    exact ymd_injective hya hyb

theorem compareRecords_le_iff {a b : Record} (ha : (ymd a.date).isSome = true)
    (hb : (ymd b.date).isSome = true) :
    compareRecords a b ≤ 0 ↔ DisplayOrder a b := by
  obtain ⟨tb, ta, htb, hta, hle, hinj⟩ := dateValue_order hb ha
  unfold compareRecords DisplayOrder
  by_cases hdate : a.date = b.date
  · simp only [hdate, ne_eq, not_true_eq_false, if_false, sub_nonpos, le_refl, true_and,
      forall_true_left]
  · simp only [ne_eq, hdate, not_false_eq_true, if_true, htb, hta, false_implies, and_true]
    rw [← hle]
    constructor
    · intro h
      have : ((tb - ta : Int) : ℚ) ≤ ((0 : Int) : ℚ) := by simpa using h
      have := Int.cast_le.mp this
      omega
    · intro h
      have : (tb - ta : Int) ≤ 0 := by omega
      exact_mod_cast this

theorem displayOrder_total {a b : Record} (ha : (ymd a.date).isSome = true)
    (hb : (ymd b.date).isSome = true) : DisplayOrder a b ∨ DisplayOrder b a := by
  obtain ⟨_, _, _, _, _, hinj⟩ := dateValue_order ha hb
  unfold DisplayOrder
  rcases Nat.lt_trichotomy (dateKey a.date) (dateKey b.date) with h | h | h
  · right
    refine ⟨h.le, fun e => ?_⟩
    rw [e] at h
    exact absurd h (lt_irrefl _)
  · rcases le_total a.id.toRat b.id.toRat with hi | hi
    · right
      exact ⟨h.le, fun _ => hi⟩
    · left
      exact ⟨h.ge, fun _ => hi⟩
  · left
    refine ⟨h.le, fun e => ?_⟩
    rw [e] at h
    exact absurd h (lt_irrefl _)

theorem displayOrder_trans {a b c : Record} (ha : (ymd a.date).isSome = true)
    (hb : (ymd b.date).isSome = true) (h1 : DisplayOrder a b) (h2 : DisplayOrder b c) :
    DisplayOrder a c := by
  obtain ⟨_, _, _, _, _, hinj⟩ := dateValue_order ha hb
  refine ⟨h2.1.trans h1.1, fun e => ?_⟩
  have hk : dateKey a.date = dateKey b.date := by
    have h3 := h1.1
    have h4 := h2.1
    rw [← e] at h4
    omega
  have hab := hinj hk
  exact (h2.2 (hab.symm.trans e)).trans (h1.2 hab)

/-! ## Facts about the sort -/

theorem insertSorted_perm (cmp : Record → Record → ℚ) (a : Record) (l : List Record) :
    (insertSorted cmp a l).Perm (a :: l) := by
  induction l with
  | nil => exact List.Perm.refl _
  | cons b bs ih =>
    unfold insertSorted
    split_ifs
    · exact List.Perm.refl _
    · exact (List.Perm.cons b ih).trans (List.Perm.swap a b bs)

theorem sortRecords_perm (cmp : Record → Record → ℚ) (l : List Record) :
    (sortRecords cmp l).Perm l := by
  induction l with
  | nil => exact List.Perm.refl _
  | cons a l ih =>
    exact (insertSorted_perm cmp a _).trans (List.Perm.cons a ih)

theorem insertSorted_pairwise (a : Record) (l : List Record)
    (ha : (ymd a.date).isSome = true) (hl : ∀ r ∈ l, (ymd r.date).isSome = true)
    (hs : l.Pairwise DisplayOrder) :
    (insertSorted compareRecords a l).Pairwise DisplayOrder := by
  induction l with
  | nil => simp [insertSorted]
  | cons b bs ih =>
    have hb := hl b (List.mem_cons_self _ _)
    have hbs : ∀ r ∈ bs, (ymd r.date).isSome = true := fun r hr => hl r (List.mem_cons_of_mem _ hr)
    rw [List.pairwise_cons] at hs
    unfold insertSorted
    split_ifs with h
    · rw [compareRecords_le_iff ha hb] at h
      refine List.pairwise_cons.mpr ⟨?_, List.pairwise_cons.mpr hs⟩
      intro x hx
      rcases List.mem_cons.mp hx with rfl | hx
      · exact h
      · exact displayOrder_trans ha hb h (hs.1 x hx)
    · rw [compareRecords_le_iff ha hb] at h
      have hba : DisplayOrder b a := (displayOrder_total ha hb).resolve_left h
      refine List.pairwise_cons.mpr ⟨?_, ih hbs hs.2⟩
      intro x hx
      rcases List.mem_cons.mp ((insertSorted_perm compareRecords a bs).mem_iff.mp hx) with rfl | hx
      · exact hba
      · exact hs.1 x hx

theorem sortRecords_pairwise (l : List Record) (hl : ∀ r ∈ l, (ymd r.date).isSome = true) :
    (sortRecords compareRecords l).Pairwise DisplayOrder := by
  induction l with
  | nil => simp [sortRecords]
  | cons a l ih =>
    have hl' : ∀ r ∈ l, (ymd r.date).isSome = true := fun r hr => hl r (List.mem_cons_of_mem _ hr)
    refine insertSorted_pairwise a _ (hl a (List.mem_cons_self _ _)) ?_ (ih hl')
    intro r hr
    exact hl' r ((sortRecords_perm compareRecords l).mem_iff.mp hr)

theorem renderRecords_shown (records : List Record) :
    (renderRecords records).shown = sortRecords compareRecords records := by
  unfold renderRecords
  simp only
  split_ifs with h
  · rw [List.length_eq_zero] at h
    rw [h]
    rfl
  · rfl

/-! ## Claim about the list view -/

/-- C9: when every stored date is a valid `YYYY-MM-DD` calendar date, the
sequence `renderRecords` displays is a permutation of the stored records, in
the order date descending and, on one date, id descending; rendering leaves
the stored list as it is. -/
theorem renderRecords_sorted (st : State)
    (hvalid : ∀ r ∈ st.records, (ymd r.date).isSome = true) :
    (renderRecords st.records).shown.Perm st.records ∧
    (renderRecords st.records).shown.Pairwise DisplayOrder ∧
    (updateUI st).recordsList = renderRecords st.records ∧
    (updateUI st).records = st.records := by
  rw [renderRecords_shown]
  exact ⟨sortRecords_perm _ _, sortRecords_pairwise _ hvalid, rfl, rfl⟩

theorem renderRecords_sorted_witness :
    (renderRecords sampleState.records).shown.Perm sampleState.records ∧
    (renderRecords sampleState.records).shown.Pairwise DisplayOrder ∧
    (updateUI sampleState).recordsList = renderRecords sampleState.records ∧
    (updateUI sampleState).records = sampleState.records :=
  renderRecords_sorted sampleState (by decide)

/-! ## Facts about digit text -/

namespace Json

theorem takeWhile_append_stop (p : Char → Bool) (ds rest : List Char)
    (hds : ∀ c ∈ ds, p c = true) (hrest : ∀ c, rest.head? = some c → p c = false) :
    (ds ++ rest).takeWhile p = ds ∧ (ds ++ rest).dropWhile p = rest := by
  induction ds with
  | nil =>
    cases rest with
    | nil => simp
    | cons c cs =>
      have := hrest c rfl
      simp [List.takeWhile, List.dropWhile, this]
  | cons d ds ih =>
    have hd := hds d (List.mem_cons_self _ _)
    have := ih (fun c hc => hds c (List.mem_cons_of_mem _ hc))
    simp [List.takeWhile, List.dropWhile, hd, this]

theorem foldl_digits (ds : List Char) (acc : Nat) :
    ds.foldl (fun a c => 10 * a + (c.toNat - 48)) acc = acc * 10 ^ ds.length + digitsValue ds := by
  induction ds generalizing acc with
  | nil => simp [digitsValue]
  | cons d ds ih =>
    simp only [digitsValue, List.foldl_cons, List.length_cons]
    rw [ih, ih (10 * 0 + (d.toNat - 48))]
    ring

theorem digitsValue_append (a b : List Char) :
    digitsValue (a ++ b) = digitsValue a * 10 ^ b.length + digitsValue b := by
  unfold digitsValue
  rw [List.foldl_append, foldl_digits]
  rfl

theorem digitsValue_zeros (j : Nat) : digitsValue (List.replicate j '0') = 0 := by
  induction j with
  | zero => rfl
  | succ j ih =>
    rw [List.replicate_succ, show '0' :: List.replicate j '0' = ['0'] ++ List.replicate j '0' from rfl,
      digitsValue_append, ih, show digitsValue ['0'] = 0 from rfl]
    simp

theorem digitChar_props (d : Nat) (hd : d < 10) :
    (Nat.digitChar d).isDigit = true ∧ (Nat.digitChar d).toNat - 48 = d ∧
      (d ≠ 0 → Nat.digitChar d ≠ '0') := by
  interval_cases d <;> decide

theorem digitChars_isDigit (n : Nat) : ∀ c ∈ digitChars n, c.isDigit = true := by
  intro c hc
  simp only [digitChars, List.mem_map, List.mem_reverse] at hc
  obtain ⟨d, hd, rfl⟩ := hc
  exact (digitChar_props d (Nat.digits_lt_base (by norm_num) hd)).1

theorem digitsValue_map_reverse (l : List Nat) (hl : ∀ d ∈ l, d < 10) :
    digitsValue (l.reverse.map Nat.digitChar) = Nat.ofDigits 10 l := by
  induction l with
  | nil => rfl
  | cons d l ih =>
    rw [List.reverse_cons, List.map_append, digitsValue_append,
      ih (fun x hx => hl x (List.mem_cons_of_mem _ hx)), Nat.ofDigits_cons]
    have := (digitChar_props d (hl d (List.mem_cons_self _ _))).2.1
    simp only [List.map_cons, List.map_nil, List.length_singleton, pow_one, digitsValue,
      List.foldl_cons, List.foldl_nil, this]
    push_cast
    ring

theorem digitsValue_digitChars (n : Nat) : digitsValue (digitChars n) = n := by
  unfold digitChars
  rw [digitsValue_map_reverse _ (fun d hd => Nat.digits_lt_base (by norm_num) hd)]
  exact Nat.ofDigits_digits 10 n

theorem digitChars_ne_nil (n : Nat) (hn : n ≠ 0) : digitChars n ≠ [] := by
  unfold digitChars
  simp [Nat.digits_ne_nil_iff_ne_zero, hn]

theorem digitChars_head (n : Nat) (hn : n ≠ 0) : (digitChars n).head? ≠ some '0' := by
  have hne : Nat.digits 10 n ≠ [] := Nat.digits_ne_nil_iff_ne_zero.mpr hn
  have hlast := Nat.getLast_digit_ne_zero 10 hn
  have hlt : (Nat.digits 10 n).getLast hne < 10 :=
    Nat.digits_lt_base (by norm_num) (List.getLast_mem hne)
  unfold digitChars
  rw [List.head?_map, List.head?_reverse, List.getLast?_eq_getLast _ hne]
  simp only [Option.map_some', ne_eq, Option.some.injEq]
  exact (digitChar_props _ hlt).2.2 hlast

end Json

/-! ## Facts about number text -/

namespace JsNum

theorem stripZeros_pow (s j fuel : Nat) (e : Int) (hs : s % 10 ≠ 0) (hj : j ≤ fuel) :
    stripZeros fuel (s * 10 ^ j) e = (s, e + j) := by
  induction j generalizing fuel e with
  | zero =>
    cases fuel with
    | zero => simp [stripZeros]
    | succ f => simp [stripZeros, hs]
  | succ j ih =>
    cases fuel with
    | zero => omega
    | succ f =>
      have h0 : s * 10 ^ (j + 1) % 10 = 0 := by
        rw [pow_succ, ← mul_assoc]
        exact Nat.mul_mod_left _ _
      have hpos : s * 10 ^ (j + 1) ≠ 0 := by
        have : s ≠ 0 := by rintro rfl; simp at hs
        positivity
      have hdiv : s * 10 ^ (j + 1) / 10 = s * 10 ^ j := by
        rw [pow_succ, ← mul_assoc]
        exact Nat.mul_div_cancel _ (by norm_num)
      unfold stripZeros
      rw [if_pos ⟨h0, hpos⟩, hdiv, ih f (e + 1) (by omega)]
      congr 1
      push_cast
      ring

theorem ofScaled_canon (neg : Bool) (q : Nat) (r : Fin 9) (e : Int) (j : Nat) :
    ofScaled neg (significand q r * 10 ^ j) (e - j) = .nz neg q r e := by
  have hr := r.isLt
  have hs : significand q r % 10 ≠ 0 := by unfold significand; omega
  have hj : j ≤ significand q r * 10 ^ j := by
    have h1 : j < 10 ^ j := Nat.lt_pow_self (by norm_num) j
    have h2 : 1 ≤ significand q r := by unfold significand; omega
    nlinarith
  unfold ofScaled
  simp only [stripZeros_pow _ _ _ _ hs hj]
  rw [dif_neg hs]
  have h1 : significand q r / 10 = q := by unfold significand; omega
  have h2 : significand q r % 10 - 1 = r.val := by unfold significand; omega
  congr 1
  · exact Fin.ext h2
  · ring

end JsNum

namespace Json

theorem parseFrac_none (rest : List Char) (h : ∀ c, rest.head? = some c → c ≠ '.') :
    parseFrac rest = some ([], rest) := by
  unfold parseFrac
  split
  · next t => exact absurd rfl (h '.' rfl)
  · rfl

theorem parseFrac_some (fp rest : List Char) (hne : fp ≠ [])
    (hfp : ∀ c ∈ fp, c.isDigit = true) (hrest : ∀ c, rest.head? = some c → c.isDigit = false) :
    parseFrac ('.' :: (fp ++ rest)) = some (fp, rest) := by
  obtain ⟨h1, h2⟩ := takeWhile_append_stop Char.isDigit fp rest hfp hrest
  simp only [parseFrac, h1, h2, if_neg hne]

theorem parseExp_none (rest : List Char)
    (h : ∀ c, rest.head? = some c → c ≠ 'e' ∧ c ≠ 'E') :
    parseExp rest = some (0, rest) := by
  unfold parseExp
  split
  · exact absurd rfl (h 'e' rfl).1
  · exact absurd rfl (h 'E' rfl).2
  · rfl

theorem parseExpDigits_eq (neg : Bool) (ed rest : List Char) (hne : ed ≠ [])
    (hed : ∀ c ∈ ed, c.isDigit = true) (hrest : ∀ c, rest.head? = some c → c.isDigit = false) :
    parseExpDigits neg (ed ++ rest) =
      some (if neg then -(digitsValue ed : Int) else (digitsValue ed : Int), rest) := by
  obtain ⟨h1, h2⟩ := takeWhile_append_stop Char.isDigit ed rest hed hrest
  simp only [parseExpDigits, h1, h2, if_neg hne]

theorem parseExp_some (neg : Bool) (ed rest : List Char) (hne : ed ≠ [])
    (hed : ∀ c ∈ ed, c.isDigit = true) (hrest : ∀ c, rest.head? = some c → c.isDigit = false) :
    parseExp ('e' :: (if neg then '-' else '+') :: (ed ++ rest)) =
      some (if neg then -(digitsValue ed : Int) else (digitsValue ed : Int), rest) := by
  cases neg
  · simp only [parseExp, parseExpSign, Bool.false_eq_true, if_false]
    exact parseExpDigits_eq false ed rest hne hed hrest
  · simp only [parseExp, parseExpSign, if_true]
    exact parseExpDigits_eq true ed rest hne hed hrest

theorem parseUnsigned_eq (neg : Bool) (ip tail fp s3 s4 : List Char) (ex : Int)
    (hne : ip ≠ []) (hip : ∀ c ∈ ip, c.isDigit = true)
    (hlead : 1 < ip.length → ip.head? ≠ some '0')
    (htail : ∀ c, tail.head? = some c → c.isDigit = false)
    (hfrac : parseFrac tail = some (fp, s3)) (hexp : parseExp s3 = some (ex, s4)) :
    parseUnsigned neg (ip ++ tail) =
      some (JsNum.ofScaled neg (digitsValue (ip ++ fp)) (ex - fp.length), s4) := by
  obtain ⟨h1, h2⟩ := takeWhile_append_stop Char.isDigit ip tail hip htail
  unfold parseUnsigned
  simp only [h1, h2]
  rw [if_neg (by
    rintro (h | ⟨h, h'⟩)
    · exact hne h
    · exact hlead h h'), hfrac]
  simp only [Option.bind_eq_bind, Option.some_bind, hexp]
  rfl

end Json

namespace Json

theorem parseUnsigned_pointText (neg : Bool) (q : Nat) (r : Fin 9) (e : Int) (rest : List Char)
    (hrest : NumEnd rest) :
    parseUnsigned neg (pointText (digitChars (JsNum.significand q r))
      ((digitChars (JsNum.significand q r)).length + e) ++ rest) = some (.nz neg q r e, rest) := by
  have hs0 : JsNum.significand q r ≠ 0 := by unfold JsNum.significand; omega
  have hds := digitChars_isDigit (JsNum.significand q r)
  have hval := digitsValue_digitChars (JsNum.significand q r)
  have hne := digitChars_ne_nil _ hs0
  have hhead := digitChars_head _ hs0
  generalize digitChars (JsNum.significand q r) = ds at hds hval hne hhead
  have hrd : ∀ c, rest.head? = some c → c.isDigit = false := fun c hc => (hrest c hc).1
  have hrp : ∀ c, rest.head? = some c → c ≠ '.' := fun c hc => (hrest c hc).2.1
  have hre : ∀ c, rest.head? = some c → c ≠ 'e' ∧ c ≠ 'E' := fun c hc => (hrest c hc).2.2
  have hk : 0 < ds.length := List.length_pos.mpr hne
  unfold pointText
  simp only
  by_cases h1 : (ds.length : Int) ≤ ds.length + e ∧ (ds.length : Int) + e ≤ 21
  · -- digits and trailing zeros
    rw [if_pos h1]
    have he : e = ((ds.length + e - ds.length : Int).toNat : Int) := by omega
    generalize (ds.length + e - ds.length : Int).toNat = j at he
    rw [parseUnsigned_eq neg (ds ++ List.replicate j '0') rest [] rest rest 0
      (by simp [hne])
      (by
        intro c hc
        rcases List.mem_append.mp hc with hc | hc
        · exact hds c hc
        · rw [List.eq_of_mem_replicate hc]; rfl)
      (by
        intro _
        rw [List.head?_append_of_ne_nil _ hne]
        exact hhead)
      hrd (parseFrac_none rest hrp) (parseExp_none rest hre)]
    rw [List.append_nil, digitsValue_append, digitsValue_zeros, hval, List.length_replicate,
      add_zero]
    have := JsNum.ofScaled_canon neg q r e j
    rw [he] at this ⊢
    simpa using this
  rw [if_neg h1]
  by_cases h2 : 0 < (ds.length : Int) + e ∧ (ds.length : Int) + e ≤ 21
  · -- a decimal point inside the digits
    rw [if_pos h2]
    have hn : (ds.length + e : Int).toNat < ds.length := by omega
    have hn0 : 0 < (ds.length + e : Int).toNat := by omega
    have hne' : (((ds.length + e : Int).toNat : Nat) : Int) = ds.length + e := by omega
    generalize (ds.length + e : Int).toNat = n at hn hn0 hne'
    have hfp : ds.drop n ≠ [] := by
      intro h
      have := congrArg List.length h
      rw [List.length_drop, List.length_nil] at this
      omega
    rw [List.append_assoc, List.cons_append,
      parseUnsigned_eq neg (ds.take n) ('.' :: (ds.drop n ++ rest)) (ds.drop n) rest rest 0
      (by
        intro h
        have := congrArg List.length h
        rw [List.length_take, List.length_nil] at this
        omega)
      (fun c hc => hds c (List.mem_of_mem_take hc))
      (by
        intro _
        cases ds with
        | nil => exact absurd rfl hne
        | cons d tl =>
          cases n with
          | zero => omega
          | succ n => simpa using hhead)
      (by
        intro c hc
        simp only [List.head?_cons, Option.some.injEq] at hc
        rw [← hc]
        rfl)
      (parseFrac_some _ rest hfp (fun c hc => hds c (List.mem_of_mem_drop hc)) hrd)
      (parseExp_none rest hre)]
    rw [List.take_append_drop, hval, List.length_drop]
    have := JsNum.ofScaled_canon neg q r e 0
    rw [pow_zero, mul_one] at this
    have hexq : (0 : Int) - ((ds.length - n : Nat) : Int) = e := by omega
    rw [hexq]
    simpa using this
  rw [if_neg h2]
  by_cases h3 : -6 < (ds.length : Int) + e ∧ (ds.length : Int) + e ≤ 0
  · -- a leading `0.`
    rw [if_pos h3]
    rw [show ('0' :: '.' :: (List.replicate (-(ds.length + e : Int)).toNat '0' ++ ds)) ++ rest
        = ['0'] ++ ('.' :: ((List.replicate (-(ds.length + e : Int)).toNat '0' ++ ds) ++ rest))
        from rfl,
      parseUnsigned_eq neg ['0'] _ (List.replicate (-(ds.length + e : Int)).toNat '0' ++ ds)
        rest rest 0 (by simp) (by intro c hc; rw [List.mem_singleton.mp hc]; rfl)
        (by intro h; simp at h)
        (by
          intro c hc
          simp only [List.head?_cons, Option.some.injEq] at hc
          rw [← hc]
          rfl)
        (parseFrac_some _ rest (by simp [hne])
          (by
            intro c hc
            rcases List.mem_append.mp hc with hc | hc
            · rw [List.eq_of_mem_replicate hc]; rfl
            · exact hds c hc)
          hrd)
        (parseExp_none rest hre)]
    rw [show ['0'] ++ (List.replicate (-(ds.length + e : Int)).toNat '0' ++ ds)
        = List.replicate ((-(ds.length + e : Int)).toNat + 1) '0' ++ ds from rfl,
      digitsValue_append, digitsValue_zeros, hval, zero_mul, zero_add, List.length_append,
      List.length_replicate]
    have := JsNum.ofScaled_canon neg q r e 0
    rw [pow_zero, mul_one] at this
    have hexq : (0 : Int) - (((-(ds.length + e : Int)).toNat + ds.length : Nat) : Int) = e := by
      omega
    rw [hexq]
    simpa using this
  · -- the exponent form
    rw [if_neg h3]
    have hex : (ds.length + e - 1 : Int) ≠ 0 := by omega
    have hexn : (ds.length + e - 1 : Int).natAbs ≠ 0 := by omega
    have hed := digitChars_isDigit (ds.length + e - 1 : Int).natAbs
    have hev := digitsValue_digitChars (ds.length + e - 1 : Int).natAbs
    have hene := digitChars_ne_nil _ hexn
    have hsign : (if (ds.length + e - 1 : Int) < 0 then '-' else '+') =
        (if decide ((ds.length + e - 1 : Int) < 0) = true then '-' else '+') := by
      simp
    have hvalue : (if decide ((ds.length + e - 1 : Int) < 0) = true
        then -(((ds.length + e - 1 : Int).natAbs : Nat) : Int)
        else (((ds.length + e - 1 : Int).natAbs : Nat) : Int)) = ds.length + e - 1 := by
      split_ifs with h
      · simp only [decide_eq_true_eq] at h; omega
      · simp only [decide_eq_true_eq] at h; omega
    rw [hsign]
    generalize digitChars (ds.length + e - 1 : Int).natAbs = ed at hed hev hene
    have hexp := parseExp_some (decide ((ds.length + e - 1 : Int) < 0)) ed rest hene hed hrd
    rw [hev, hvalue] at hexp
    match ds, hne, hds, hval, hhead, hexp with
    | [d], _, hds, hval, _, hexp =>
      rw [show (d :: 'e' :: (if decide (((([d] : List Char).length : Int) + e - 1) < 0) = true
            then '-' else '+') :: ed) ++ rest
          = [d] ++ ('e' :: (if decide (((([d] : List Char).length : Int) + e - 1) < 0) = true
            then '-' else '+') :: (ed ++ rest)) from rfl,
        parseUnsigned_eq neg [d] _ [] _ rest _ (by simp) hds (by intro h; simp at h)
          (by
            intro c hc
            simp only [List.head?_cons, Option.some.injEq] at hc
            rw [← hc]
            rfl)
          (parseFrac_none _ (by
            intro c hc
            simp only [List.head?_cons, Option.some.injEq] at hc
            rw [← hc]
            decide))
          hexp]
      rw [List.append_nil, hval]
      have := JsNum.ofScaled_canon neg q r e 0
      rw [pow_zero, mul_one] at this
      rw [← this]
      congr 1
      simp
    | d :: d2 :: tl, _, hds, hval, _, hexp =>
      rw [show (d :: '.' :: ((d2 :: tl) ++ 'e' :: (if decide ((((d :: d2 :: tl : List Char).length
            : Int) + e - 1) < 0) = true then '-' else '+') :: ed)) ++ rest
          = [d] ++ ('.' :: ((d2 :: tl) ++ ('e' :: (if decide ((((d :: d2 :: tl : List Char).length
            : Int) + e - 1) < 0) = true then '-' else '+') :: (ed ++ rest)))) from by simp,
        parseUnsigned_eq neg [d] _ (d2 :: tl) _ rest _ (by simp)
          (fun c hc => hds c (by
            rw [List.mem_singleton.mp hc]
            exact List.mem_cons_self _ _))
          (by intro h; simp at h)
          (by
            intro c hc
            simp only [List.head?_cons, Option.some.injEq] at hc
            rw [← hc]
            rfl)
          (parseFrac_some (d2 :: tl) _ (by simp)
            (fun c hc => hds c (List.mem_cons_of_mem _ hc))
            (by
              intro c hc
              simp only [List.head?_cons, Option.some.injEq] at hc
              rw [← hc]
              rfl))
          hexp]
      rw [show [d] ++ d2 :: tl = d :: d2 :: tl from rfl, hval]
      have := JsNum.ofScaled_canon neg q r e 0
      rw [pow_zero, mul_one] at this
      rw [← this]
      simp only [List.length_cons]
      push_cast
      have hexq : ((tl.length : Int) + 1 + 1 + e - 1 - (tl.length + 1)) = e - 0 := by omega
      rw [hexq]

end Json

namespace Json

theorem parseUnsigned_head {neg : Bool} {s : List Char} {v : JsNum × List Char}
    (h : parseUnsigned neg s = some v) : ∃ c tl, s = c :: tl ∧ c.isDigit = true := by
  cases s with
  | nil => simp [parseUnsigned] at h
  | cons c tl =>
    refine ⟨c, tl, rfl, ?_⟩
    by_contra hc
    simp [parseUnsigned, List.takeWhile, hc] at h

/-- Reading back the text of a number gives the number. -/
theorem parseNumber_numberText (x : JsNum) (rest : List Char) (hrest : NumEnd rest) :
    parseNumber (numberText x ++ rest) = some (x, rest) := by
  cases x with
  | zero =>
    have h := parseUnsigned_eq false ['0'] rest [] rest rest 0 (by simp)
      (by intro c hc; rw [List.mem_singleton.mp hc]; rfl) (by intro h; simp at h)
      (fun c hc => (hrest c hc).1) (parseFrac_none rest (fun c hc => (hrest c hc).2.1))
      (parseExp_none rest (fun c hc => (hrest c hc).2.2))
    rw [show digitsValue (['0'] ++ []) = 0 from rfl, JsNum.ofScaled_zero] at h
    exact h
  | nz neg q r e =>
    have h := parseUnsigned_pointText neg q r e rest hrest
    cases neg with
    | true => exact h
    | false =>
      obtain ⟨c, tl, hc, hd⟩ := parseUnsigned_head h
      have hne : c ≠ '-' := by
        rintro rfl
        exact absurd hd (by decide)
      simp only [numberText, Bool.false_eq_true, if_false]
      rw [hc] at h ⊢
      unfold parseNumber
      split
      · next t heq =>
        injection heq with h1 _
        exact absurd h1 hne
      · exact h

/-! ## Facts about string text -/

theorem hexValue_digitChar (d : Nat) (hd : d < 16) : hexValue (Nat.digitChar d) = some d := by
  interval_cases d <;> decide

theorem hex4_control (c : Char) (hc : c.toNat < 32) :
    hex4 '0' '0' (Nat.digitChar (c.toNat / 16)) (Nat.digitChar (c.toNat % 16)) = some c := by
  have h0 : hexValue '0' = some 0 := by decide
  have hv : (0 * 16 + 0) * 16 + c.toNat / 16 = c.toNat / 16 := by omega
  simp only [hex4, h0, hexValue_digitChar _ (show c.toNat / 16 < 16 by omega),
    hexValue_digitChar _ (Nat.mod_lt _ (by norm_num : 16 > 0)), Option.bind_eq_bind,
    Option.some_bind, hv, Nat.div_add_mod']
  rw [if_pos (Or.inl (by omega)), Char.ofNat_toNat]

theorem char_of_toNat {c : Char} {n : Nat} (h : c.toNat = n) : c = Char.ofNat n := by
  rw [← h, Char.ofNat_toNat]

theorem parseStringBody_quoteChar (c : Char) (tail str out : List Char) (fuel : Nat)
    (h : parseStringBody fuel tail = some (str, out)) :
    parseStringBody (fuel + 1) (quoteChar c ++ tail) = some (c :: str, out) := by
  have hbq : backslash ≠ dquote := by decide
  unfold quoteChar
  split_ifs with h1 h2 h3 h4 h5 h6 h7 h8
  · rw [char_of_toNat h1]
    simp [parseStringBody, hbq, unescape, h, show ¬ 'b' = 'u' by decide,
      show ¬ 'b' = dquote by decide, show ¬ 'b' = backslash by decide]
  · rw [char_of_toNat h2]
    simp [parseStringBody, hbq, unescape, h, show ¬ 't' = 'u' by decide,
      show ¬ 't' = dquote by decide, show ¬ 't' = backslash by decide]
  · rw [char_of_toNat h3]
    simp [parseStringBody, hbq, unescape, h, show ¬ 'n' = 'u' by decide,
      show ¬ 'n' = dquote by decide, show ¬ 'n' = backslash by decide]
  · rw [char_of_toNat h4]
    simp [parseStringBody, hbq, unescape, h, show ¬ 'f' = 'u' by decide,
      show ¬ 'f' = dquote by decide, show ¬ 'f' = backslash by decide]
  · rw [char_of_toNat h5]
    simp [parseStringBody, hbq, unescape, h, show ¬ 'r' = 'u' by decide,
      show ¬ 'r' = dquote by decide, show ¬ 'r' = backslash by decide]
  · subst h6
    simp [parseStringBody, hbq, unescape, h, show ¬ dquote = 'u' by decide]
  · subst h7
    simp [parseStringBody, hbq, unescape, h, show ¬ backslash = 'u' by decide]
  · simp [parseStringBody, hbq, h, hex4_control c h8]
  · simp [parseStringBody, h6, h7, h8, h]

theorem length_le_flatMap_quoteChar (s : List Char) :
    s.length ≤ (s.flatMap quoteChar).length := by
  induction s with
  | nil => simp
  | cons c s ih =>
    have hc : 1 ≤ (quoteChar c).length := by
      unfold quoteChar
      split_ifs <;> simp
    simp only [List.flatMap_cons, List.length_append, List.length_cons]
    omega

theorem parseStringBody_quote (s rest : List Char) (fuel : Nat) (hf : s.length < fuel) :
    parseStringBody fuel (s.flatMap quoteChar ++ dquote :: rest) = some (s, rest) := by
  induction s generalizing fuel with
  | nil =>
    cases fuel with
    | zero => omega
    | succ f => simp [parseStringBody]
  | cons c s ih =>
    cases fuel with
    | zero => omega
    | succ f =>
      rw [List.flatMap_cons, List.append_assoc]
      exact parseStringBody_quoteChar c _ s rest f
        (ih f (by simp only [List.length_cons] at hf; omega))

/-- Reading back the text of a string gives the string. -/
theorem parseString_quote (s rest : List Char) :
    parseString (quoteJSONString s ++ rest) = some (s, rest) := by
  have hl := length_le_flatMap_quoteChar s
  rw [show quoteJSONString s ++ rest = dquote :: (s.flatMap quoteChar ++ dquote :: rest) by
    simp [quoteJSONString]]
  unfold parseString
  simp only [if_true]
  exact parseStringBody_quote s rest _ (by
    simp only [List.length_append, List.length_cons]
    omega)

end Json

/-! ## Facts about record and array text -/

namespace Json

theorem expect_append (lit s : List Char) : expect lit (lit ++ s) = some s := by
  induction lit with
  | nil => cases s <;> rfl
  | cons c lit ih => simp [expect, ih]

theorem numEnd_cons (c : Char) (t : List Char)
    (h : c.isDigit = false ∧ c ≠ '.' ∧ c ≠ 'e' ∧ c ≠ 'E') : NumEnd (c :: t) := by
  intro d hd
  simp only [List.head?_cons, Option.some.injEq] at hd
  rw [← hd]
  exact h

theorem numEnd_cons_append (c : Char) (a b : List Char)
    (h : c.isDigit = false ∧ c ≠ '.' ∧ c ≠ 'e' ∧ c ≠ 'E') : NumEnd ((c :: a) ++ b) :=
  numEnd_cons c (a ++ b) h

/-- Reading back the text of a record gives the record. -/
theorem parseRecord_recordText (r : Record) (rest : List Char) :
    parseRecord (recordText r ++ rest) = some (r, rest) := by
  have e : recordText r ++ rest =
      (lbrace :: (quoteJSONString "id".toList ++ [':'])) ++ (numberText r.id ++
      ((',' :: (quoteJSONString "date".toList ++ [':'])) ++ (quoteJSONString r.date ++
      ((',' :: (quoteJSONString "startTime".toList ++ [':'])) ++ (quoteJSONString r.startTime ++
      ((',' :: (quoteJSONString "endTime".toList ++ [':'])) ++ (quoteJSONString r.endTime ++
      ((',' :: (quoteJSONString "duration".toList ++ [':'])) ++ (numberText r.duration ++
      ([rbrace] ++ rest)))))))))) := by
    simp only [recordText, List.append_assoc, List.cons_append, List.nil_append]
  rw [e]
  unfold parseRecord
  simp only [expect_append, Option.bind_eq_bind, Option.some_bind, Option.pure_def,
    parseString_quote]
  rw [parseNumber_numberText _ _ (numEnd_cons_append ',' _ _ (by decide))]
  simp only [expect_append, Option.bind_eq_bind, Option.some_bind, Option.pure_def,
    parseString_quote]
  rw [parseNumber_numberText _ _ (numEnd_cons_append rbrace [] _ (by decide))]
  simp only [expect_append, Option.bind_eq_bind, Option.some_bind, Option.pure_def]

theorem recordText_head (r : Record) : ∃ t, recordText r = lbrace :: t := ⟨_, rfl⟩

theorem parseElems_elemsText (rs : List Record) (rest : List Char) (fuel : Nat)
    (hne : rs ≠ []) (hf : rs.length ≤ fuel) :
    parseElems fuel (elemsText rs ++ rest) = some (rs, rest) := by
  induction rs generalizing fuel with
  | nil => exact absurd rfl hne
  | cons r rs ih =>
    cases fuel with
    | zero => simp at hf
    | succ f =>
      cases rs with
      | nil =>
        rw [show elemsText [r] ++ rest = recordText r ++ (']' :: rest) by simp [elemsText]]
        simp [parseElems, parseRecord_recordText]
      | cons r2 rs =>
        rw [show elemsText (r :: r2 :: rs) ++ rest =
          recordText r ++ (',' :: (elemsText (r2 :: rs) ++ rest)) by simp [elemsText]]
        have := ih f (by simp) (by simp only [List.length_cons] at hf ⊢; omega)
        simp [parseElems, parseRecord_recordText, this]

theorem length_le_elemsText (rs : List Record) : rs.length ≤ (elemsText rs).length := by
  induction rs with
  | nil => simp
  | cons r rs ih =>
    cases rs with
    | nil => simp [elemsText]
    | cons r2 rs =>
      simp only [elemsText, List.length_append, List.length_cons] at ih ⊢
      omega

/-- `JSON.parse(JSON.stringify(records))` gives the records back. -/
theorem parse_stringify (rs : List Record) : parse (stringify rs) = some rs := by
  cases rs with
  | nil => rfl
  | cons r rs =>
    have h := parseElems_elemsText (r :: rs) [] (elemsText (r :: rs)).length (by simp)
      (length_le_elemsText _)
    rw [List.append_nil] at h
    obtain ⟨t, ht⟩ : ∃ t, elemsText (r :: rs) = lbrace :: t := by
      cases rs with
      | nil => exact ⟨_, rfl⟩
      | cons r2 rs => exact ⟨_, rfl⟩
    unfold stringify parse
    rw [ht] at h ⊢
    split
    · next heq =>
      injection heq with _ h2
      injection h2 with h3 _
      exact absurd h3 (by decide)
    · next t2 _ heq =>
      injection heq with _ h2
      subst h2
      rw [h]
    · next _ hcon =>
      exact (hcon _ rfl).elim

theorem stringify_ne_nil (rs : List Record) : stringify rs ≠ [] := by
  simp [stringify]

end Json

/-! ## Claims about persistence -/

theorem loadData_stringify (st : State) (rs : List Record)
    (h : st.store = some (Json.stringify rs)) :
    loadData st = some { st with records := rs } := by
  unfold loadData
  rw [h]
  have hp := Json.parse_stringify rs
  cases hs : Json.stringify rs with
  | nil => exact absurd hs (Json.stringify_ne_nil rs)
  | cons c t =>
    rw [hs] at hp
    simp only [hp, Option.map_some']

/-- C3: `saveData` followed by `loadData` leaves `records` equal to the saved
sequence, whatever `records` held in between: same length, same order, same
records. -/
theorem saveData_loadData (st : State) (mem : List Record) :
    (loadData (saveData st)).map State.records = some st.records ∧
    ∃ st1, loadData { saveData st with records := mem } = some st1 ∧
      st1.records = st.records ∧ st1.records.length = st.records.length ∧
      ∀ i : Nat, st1.records[i]? = st.records[i]? := by
  refine ⟨?_, ⟨{ saveData st with records := st.records }, ?_, rfl, rfl, fun _ => rfl⟩⟩
  · rw [loadData_stringify (saveData st) st.records rfl]
    rfl
  · exact loadData_stringify { saveData st with records := mem } st.records rfl

/-- Startup over a value `saveData` wrote shows the saved records. -/
theorem startup_stringify (rs : List Record) :
    startup (some (Json.stringify rs)) =
      some (updateUI { initialState (some (Json.stringify rs)) with records := rs }) := by
  unfold startup
  rw [loadData_stringify (initialState (some (Json.stringify rs))) rs rfl]
  rfl

